import Mathlib

/-
  Verification of biosensors.usc numeric core
  (src/inst/include/WassersteinRegression.h, src/inst/include/NadarayaRegression.h).

  Shallow embedding conventions:
  * Armadillo matrices of doubles are modelled as `List (List ℚ)` (row lists) for the
    code paths that are pure rational arithmetic (Wasserstein engine, row
    canonicalization, trapezoid integration), so that theorems can be checked by
    evaluation.  The kernel-regression engine needs `exp`, `sqrt` and `π`, so it is
    modelled over `ℝ` with matrices as functions `Nat → Nat → ℝ` together with the
    intended dimensions.
  * C++ `throw` is modelled as `Except.error`; the external collaborators
    (`arma::solve`, `quadprog`) are oracle parameters; a `quadprog` call that throws
    is an oracle returning `none`.
  * `arma::approx_equal(.., "absdiff", tol)` is `|a(i) - b(i)| ≤ tol` elementwise and
    requires equal dimensions.
-/

set_option maxHeartbeats 1000000

/- The Batteries rational arithmetic operations are `@[irreducible]`, which blocks
`decide`-based evaluation of closed rational computations; restore the default
reducibility inside this file so concrete runs of the embedded code evaluate. -/
attribute [local semireducible] Rat.add Rat.sub Rat.mul Rat.inv

abbrev Mat : Type := List (List ℚ)

deriving instance DecidableEq for Except

/-- Number of rows of a row-list matrix (`arma n_rows`). -/
def nrowsM (M : Mat) : Nat := M.length

/-- Number of columns of a row-list matrix (`arma n_cols`); rows are assumed uniform. -/
def ncolsM (M : Mat) : Nat := (M.headD []).length

/-- `arma::join_horiz` for row-list matrices. -/
def join_horiz (A B : Mat) : Mat := List.zipWith (fun r1 r2 => r1 ++ r2) A B

/-- `arma::ones(n,1)`. -/
def ones_col (n : Nat) : Mat := List.replicate n [1]

/-- Matrix product entry: dot product of row `row` of the left factor with column `j`
of `B` (the loop over `k` of `row(k) * B(k,j)`). -/
def dot_col (row : List ℚ) (B : Mat) (j : Nat) : ℚ :=
  ((List.range row.length).map (fun k => row.getD k 0 * (B.getD k []).getD j 0)).sum

/-- Matrix multiplication of row-list matrices. -/
def mat_mul (A B : Mat) : Mat :=
  A.map (fun row => (List.range (ncolsM B)).map (fun j => dot_col row B j))

/-- Matrix-vector product `C * hx` (used for the quadratic-program linear term). -/
def mat_vec (C : Mat) (hx : List ℚ) : List ℚ :=
  C.map (fun row => (List.zipWith (fun a b => a * b) row hx).sum)

/-- Column means, `arma::mean(A, 0)`. -/
def mean_cols (A : Mat) : List ℚ :=
  (List.range (ncolsM A)).map (fun j => ((A.map (fun r => r.getD j 0)).sum) / A.length)

/-- Select rows of `M` at the given indices (`M.rows(idx)`). -/
def sel_rows (M : Mat) (idx : List Nat) : Mat := idx.map (fun i => M.getD i [])

/-- Matrix transpose (`arma .t()`) for row-list matrices with uniform row length. -/
def transposeM (M : Mat) : Mat :=
  (List.range (ncolsM M)).map (fun j => M.map (fun r => r.getD j 0))

/--
Embedding of `trapecio` (NadarayaRegression.h, lines 40-64): scalar trapezoid rule.
The source checks that `X` and `Y` have the same shape, keeps the input when it has a
single column and transposes it otherwise, and then computes the cumulative sums of
`(X.rows(1,n-1) - X.rows(0,n-2)) % (Y.rows(1,n-1) + Y.rows(0,n-2))` into an `n × 1`
matrix `C`, returning `C.row(n-1)` (the last cumulative value, i.e. half the total
sum).  When the canonicalized input is not a single column (both original dimensions
are at least 2), the assignments `C.row(1) = 0.5*tmp` / `C.rows(1,n-1) = 0.5*cumsum(tmp)`
have mismatched dimensions and Armadillo aborts; when `n < 2` the slice
`X.rows(1, n-1)` aborts.  Both aborts are modelled as errors.
-/
def trapecio (X Y : Mat) : Except String Mat :=
  if X.length ≠ Y.length ∨ ncolsM X ≠ ncolsM Y then
    Except.error "Arguments x and y must be matrices of the same dimension"
  else
    let Xc := if ncolsM X = 1 then X else transposeM X
    let Yc := if ncolsM X = 1 then Y else transposeM Y
    let n := Xc.length
    if n < 2 then Except.error "arma error: submatrix row span out of bounds"
    else if ncolsM Xc ≠ 1 then Except.error "arma error: incompatible matrix dimensions"
    else
      let xs := Xc.map (fun r => r.headD 0)
      let ys := Yc.map (fun r => r.headD 0)
      let tmp := (List.range (n - 1)).map
        (fun i => (xs.getD (i+1) 0 - xs.getD i 0) * (ys.getD (i+1) 0 + ys.getD i 0))
      Except.ok [[(1/2) * tmp.sum]]

/--
Embedding of `cumtrapz` (WassersteinRegression.h, lines 56-82): cumulative trapezoid
rule.  Row-vector inputs are transposed to columns and the result is transposed back.
`C.row(0)` is zero and `C.row(i)` for `i ≥ 1` is half the running sum of the
spacing-weighted sums, columnwise.  `X.rows(1, n-1)` aborts when `n < 2`.
-/
def cumtrapz (X Y : Mat) : Except String Mat :=
  if X.length ≠ Y.length ∨ ncolsM X ≠ ncolsM Y then
    Except.error "Arguments x and y must be matrices of the same dimension"
  else
    let transposed := X.length = 1
    let Xc := if transposed then transposeM X else X
    let Yc := if transposed then transposeM Y else Y
    let n := Xc.length
    let m := ncolsM Xc
    if n < 2 then Except.error "arma error: submatrix row span out of bounds"
    else
      let tmp := (List.range (n - 1)).map (fun i => (List.range m).map (fun j =>
        ((Xc.getD (i+1) []).getD j 0 - (Xc.getD i []).getD j 0) *
          ((Yc.getD (i+1) []).getD j 0 + (Yc.getD i []).getD j 0)))
      let C := (List.range n).map (fun i => (List.range m).map (fun j =>
        (1/2) * ((List.range i).map (fun i2 => (tmp.getD i2 []).getD j 0)).sum))
      Except.ok (if transposed then transposeM C else C)

/-- Embedding of `is_smaller` (WassersteinRegression.h, lines 84-92) on two row
lists: scan the coordinates, return `true` at the first strictly larger coordinate of
the first row, `false` at the first strictly smaller one, `false` when equal. -/
def is_smaller_rows : List ℚ → List ℚ → Bool
  | a :: as, b :: bs => if a > b then true else if a < b then false else is_smaller_rows as bs
  | _, _ => false

/-- `is_smaller(A, i, j)` compares rows `i` and `j` of `A`. -/
def is_smaller (A : Mat) (i j : Nat) : Bool :=
  is_smaller_rows (A.getD i []) (A.getD j [])

/-- `arma::approx_equal(a, b, "absdiff", tol)`: equal dimensions and every entrywise
absolute difference at most `tol`. -/
def approx_equal (a b : List ℚ) (tol : ℚ) : Bool :=
  decide (a.length = b.length ∧ ∀ p ∈ List.zip a b, |p.1 - p.2| ≤ tol)

/-- The scan of `find_index` (WassersteinRegression.h, lines 94-101): return the
index of the first row of `C` approx-equal (tolerance `0.002 = 1/500`) to `rowA`,
and `0` when no row matches. -/
def find_index_loop : Mat → List ℚ → Nat → Nat
  | [], _, _ => 0
  | c :: cs, r, i => if approx_equal r c (1/500) then i else find_index_loop cs r (i+1)

/-- Embedding of `find_index` (WassersteinRegression.h, lines 94-101). -/
def find_index (C : Mat) (rowA : List ℚ) : Nat := find_index_loop C rowA 0

/-- The first loop of `ic_unique_rows` (WassersteinRegression.h, lines 116-130):
collect, in input order, the rows that are not approx-equal (tolerance `0.002`) to an
already collected row. -/
def ic_scan (A : Mat) : Mat :=
  A.foldl (fun B row => if B.any (fun b => approx_equal row b (1/500)) then B else B ++ [row]) []

/-- `arma::sort_index(keys)` (ascending).  The tie order of `std::sort` is
unspecified; a stable insertion sort is used, and ties are afterwards reordered by
the explicit tie-breaking loop of the source. -/
def sort_index (keys : List ℚ) : List Nat :=
  List.insertionSort (fun a b => keys.getD a 0 ≤ keys.getD b 0) (List.range keys.length)

/-- Swap entries `i` and `j` of an index vector. -/
def swap_idx (l : List Nat) (i j : Nat) : List Nat :=
  (l.set i (l.getD j 0)).set j (l.getD i 0)

/-- Inner tie-breaking loop of `ic_unique_rows` (lines 133-141): for fixed `i`, scan
`j` upward (with `fuel` remaining iterations); break when the first-column key at
`indices(i)` is strictly below the one at `indices(j)`; otherwise swap when row
`indices(i)` is lexicographically greater than row `indices(j)`. -/
def tie_inner (B : Mat) (i : Nat) : List Nat → Nat → Nat → List Nat
  | idx, _, 0 => idx
  | idx, j, fuel+1 =>
    if (B.getD (idx.getD i 0) []).getD 0 0 < (B.getD (idx.getD j 0) []).getD 0 0 then idx
    else
      tie_inner B i
        (if is_smaller B (idx.getD i 0) (idx.getD j 0) then swap_idx idx i j else idx)
        (j+1) fuel

/-- Outer tie-breaking loop of `ic_unique_rows` (lines 132-142). -/
def tie_outer (B : Mat) (idx : List Nat) : List Nat :=
  (List.range (idx.length - 1)).foldl
    (fun acc i => tie_inner B i acc (i+1) (acc.length - (i+1))) idx

/-- Embedding of `ic_unique_rows` (WassersteinRegression.h, lines 113-154): collect
the tolerance-distinct rows, order them by first-column key (ties broken by the
explicit swap loop), and map every input row to its first approx-equal ordered row
via `find_index`. -/
def ic_unique_rows (A : Mat) : Mat × List Nat :=
  let B := ic_scan A
  let indices := tie_outer B (sort_index (B.map (fun r => r.getD 0 0)))
  let C := indices.map (fun i => B.getD i [])
  (C, A.map (fun row => find_index C row))

/--
Embedding of `getcC` (WassersteinRegression.h, lines 165-185): builds the linear
term `c` and quadratic term matrix `C` of the quadratic program from the grid
spacings `deltaT = diff t`, starting from `c = 0.5*deltaT(m)*bm`,
`C = 0.1*deltaT(m)*bm*bmᵀ` and accumulating, for `k < m`,
`0.5*(deltaT(k)+deltaT(k+1))` times `bk` resp. `bk*bkᵀ`, where `bk` is half the
entrywise sum of the first `k+2` entries of `deltaTm` and `deltaTp` padded with
`m - k` zeros.
-/
def getcC (t : List ℚ) : (List ℚ) × Mat :=
  let deltaT := List.zipWith (fun a b => a - b) t.tail t
  let deltaTp := deltaT ++ [0]
  let deltaTm := 0 :: deltaT
  let bm := List.zipWith (fun a b => (1/2) * (a + b)) deltaTp deltaTm
  let m := deltaT.length - 1
  let c0 := bm.map (fun x => (1/2) * deltaT.getD m 0 * x)
  let C0 := bm.map (fun x => bm.map (fun y => (1/10) * deltaT.getD m 0 * (x * y)))
  (List.range m).foldl (fun st k =>
      let bk := (List.zipWith (fun a b => (1/2) * (a + b))
          (deltaTm.take (k+2)) (deltaTp.take (k+2))) ++ List.replicate (m - k) 0
      let w := (1/2) * (deltaT.getD k 0 + deltaT.getD (k+1) 0)
      (List.zipWith (fun a b => a + b) st.1 (bk.map (fun x => w * x)),
       List.zipWith (fun r1 r2 => List.zipWith (fun a b => a + b) r1 r2) st.2
         (bk.map (fun x => bk.map (fun y => w * (x * y)))))
    ) (c0, C0)

/-- Result record of the Fréchet-Wasserstein engine (`regression_struct`,
WassersteinRegression.h, lines 36-46). -/
structure regression_struct where
  xfit : Mat
  xpred : Mat
  Qfit : Mat
  Qpred : Mat
  qfit : Mat
  qpred : Mat
  ffit : Mat
  fpred : Mat
  QP_used : Int
deriving DecidableEq

/-- The joined covariate blocks and their canonicalization
(`ic_unique_rows(join_vert(join_vert(xpred, xfit), xbar))`, line 226). -/
def wr_xall_ic (xpred xfit : Mat) : Mat × List Nat :=
  ic_unique_rows ((xpred ++ xfit) ++ [mean_cols xfit])

/-- The normal-equation solve `solve(AᵀA, AᵀB)` with the intercept-augmented design
matrix `A = [1 | xfit]` of `n` rows (lines 230-233); `solve` is the external
LAPACK-backed `arma::solve`, supplied as an oracle. -/
def wr_bhat (solve : Mat → Mat → Mat) (xfit B : Mat) (n : Nat) : Mat :=
  let A := join_horiz (ones_col n) xfit
  solve (mat_mul (transposeM A) A) (mat_mul (transposeM A) B)

/-- The unconstrained OLS-predicted quantile densities at all canonical covariate
rows: `qall = [1 | xall] * bhat` (line 234). -/
def wr_qall (solve : Mat → Mat → Mat) (xfit q xpred : Mat) : Mat :=
  let xall := (wr_xall_ic xpred xfit).1
  mat_mul (join_horiz (ones_col xall.length) xall) (wr_bhat solve xfit q q.length)

/-- The OLS-predicted quantile-at-zero values at all canonical covariate rows:
`Q0all = [1 | xall] * ahat` (line 235), flattened to a vector. -/
def wr_Q0all (solve : Mat → Mat → Mat) (xfit Q0 xpred : Mat) (n : Nat) : List ℚ :=
  let xall := (wr_xall_ic xpred xfit).1
  (mat_mul (join_horiz (ones_col xall.length) xall) (wr_bhat solve xfit Q0 n)).map
    (fun row => row.getD 0 0)

/-- The flagged rows `dec = find(min(qall.t(), 0) < 0)` (line 239): ascending
indices of the rows of `qall` that contain a strictly negative entry. -/
def wr_dec (qall : Mat) : List Nat :=
  (List.range qall.length).filter (fun i => (qall.getD i []).any (fun x => decide (x < 0)))

/-- The constraint matrix `D = join_vert(join_vert(ones(1,1), c).t(), join_horiz(c, C))`
(line 248). -/
def wr_D (c : List ℚ) (Cm : Mat) : Mat :=
  [1 :: c] ++ join_horiz (c.map (fun x => [x])) Cm

/-- `V1 = join_horiz(zeros(m,1), -eye(m,m))` (line 249). -/
def wr_V1 (m : Nat) : Mat :=
  (List.range m).map (fun i => 0 :: (List.range m).map (fun j => if j = i then -1 else 0))

/-- `V2 = join_horiz(zeros(m-1,1), join_horiz(eye(m-1,m-1), zeros(m-1,1)) -
join_horiz(zeros(m-1,1), eye(m-1,m-1)))` (lines 252-255): row `i` is zero in column
0 and `e_i - e_(i+1)` in the remaining `m` columns. -/
def wr_V2 (m : Nat) : Mat :=
  (List.range (m - 1)).map (fun i =>
    0 :: (List.range m).map (fun j => (if j = i then (1:ℚ) else 0) - (if j = i + 1 then 1 else 0)))

/--
One iteration of the flagged-row correction loop (WassersteinRegression.h, lines
258-276) acting on the state `(qall, Q0all)` at flagged row `i`:
build the per-row quadratic program - the linear term
`d = -join_vert(ax + cᵀ hxᵀ, ax*c + C*hxᵀ)`, the smoothness bound
`v2 = 1.5*|diff hx|`, the constraints `V = join_vert(V1, join_vert(V2, -V2))` and
`v = join_horiz(v1, join_horiz(v2, v2))` - call the external solver, and
unconditionally write the solution vector back into row `i` (`tmp.subvec(1, end)`)
and `Q0all(i)` (`tmp(0)`).  The solver throwing is the oracle returning `none`; the
source then merely prints a warning, so `tmp` keeps its zero initialization
`zeros(d.n_elem)` and the row is overwritten with zeros.
-/
def qp_step (quadprog : Mat → List ℚ → Mat → List ℚ → Option (List ℚ))
    (c : List ℚ) (Cm D V1 : Mat) (v1 : List ℚ) (V2 : Mat)
    (st : Mat × List ℚ) (i : Nat) : Mat × List ℚ :=
  let ax := st.2.getD i 0
  let hx := st.1.getD i []
  let d := ((ax + (List.zipWith (fun a b => a * b) c hx).sum) ::
      List.zipWith (fun a b => a + b) (c.map (fun x => ax * x)) (mat_vec Cm hx)).map
      (fun x => -x)
  let v2 := (List.zipWith (fun a b => a - b) hx.tail hx).map (fun x => (3/2) * |x|)
  let V := V1 ++ (V2 ++ V2.map (fun row => row.map (fun x => -x)))
  let v := v1 ++ (v2 ++ v2)
  let tmp := (quadprog D d V v).getD (List.replicate d.length 0)
  (st.1.set i tmp.tail, st.2.set i (tmp.headD 0))

/-- The flagged-row correction loop (the `#pragma omp parallel for` loop over `dec`,
lines 257-276).  The flagged rows are pairwise distinct, so the parallel loop is
modelled as a sequential fold. -/
def qp_loop (quadprog : Mat → List ℚ → Mat → List ℚ → Option (List ℚ))
    (c : List ℚ) (Cm D V1 : Mat) (v1 : List ℚ) (V2 : Mat)
    (dec : List Nat) (st : Mat × List ℚ) : Mat × List ℚ :=
  dec.foldl (qp_step quadprog c Cm D V1 v1 V2) st

/--
Embedding of `wasserstein_regression` (WassersteinRegression.h, lines 210-307).
`solve` and `quadprog` are the external linear-algebra and quadratic-program
collaborators.  Notes on dead code: `sig = cov(xfit)` (line 222) and `B = Q0`
(line 231) are computed by the source but never used, and the block at lines
282-284 computes a `cumtrapz` value for rows 181/19 and discards it; all three are
omitted.  Elementwise `1/qall` on a zero entry is IEEE `inf` in the source and `0`
in `ℚ`; no theorem below inspects `ffit`/`fpred` values.
-/
def wasserstein_regression (solve : Mat → Mat → Mat)
    (quadprog : Mat → List ℚ → Mat → List ℚ → Option (List ℚ))
    (xfit q Q0 xpred : Mat) (t : List ℚ) (qdmin : ℚ) : Except String regression_struct :=
  let n := q.length
  let m := ncolsM q
  if t.length ≠ m then
    Except.error "Length of t should match number of columns in q"
  else if t.getD 0 0 ≠ 0 ∨ t.getD (t.length - 1) 0 ≠ 1 then
    Except.error "Input t should be an increasing grid beginning at 0 and ending at 1"
  else
    let k := xpred.length
    let ic := (wr_xall_ic xpred xfit).2
    let r := (wr_xall_ic xpred xfit).1.length
    let qall0 := wr_qall solve xfit q xpred
    let Q0all0 := wr_Q0all solve xfit Q0 xpred n
    let dec := wr_dec qall0
    let QP_used : Int := if dec.isEmpty then 0 else 1
    let qq :=
      if dec.isEmpty then (qall0, Q0all0)
      else
        let cC := getcC t
        qp_loop quadprog cC.1 cC.2 (wr_D cC.1 cC.2) (wr_V1 m)
          (List.replicate m (-qdmin)) (wr_V2 m) dec (qall0, Q0all0)
    let QallE := (List.range r).foldlM (fun (acc : Mat) j =>
      (cumtrapz [t] [qq.1.getD j []]).map (fun ct =>
        acc ++ [(ct.headD []).map (fun x => qq.2.getD j 0 + x)])) ([] : Mat)
    QallE.map (fun Qall =>
      let fall := qq.1.map (fun row => row.map (fun x => 1 / x))
      { xfit := xfit, xpred := xpred,
        Qfit := sel_rows Qall ((ic.drop k).take n), Qpred := sel_rows Qall (ic.take k),
        qfit := sel_rows qq.1 ((ic.drop k).take n), qpred := sel_rows qq.1 (ic.take k),
        ffit := sel_rows fall ((ic.drop k).take n), fpred := sel_rows fall (ic.take k),
        QP_used := QP_used })

/-- The always-failing quadratic-program oracle (a mocked solver whose every call
throws, caught by the source at line 271). -/
def qp_fail_oracle : Mat → List ℚ → Mat → List ℚ → Option (List ℚ) := fun _ _ _ _ => none

/-- A concrete linear-solve oracle for closed evaluations: returns the right-hand
side unchanged.  (The engine treats `arma::solve` as a black box, so any function
of the correct shape exercises the surrounding code.) -/
def solve_rhs_oracle : Mat → Mat → Mat := fun _ B => B

/--
The value of `trapecio` for an `n × 1` column-vector pair in its success path
(`n ≥ 2`), over `ℝ`: half the sum of the spacing-weighted endpoint sums.  This is
the form in which the kernel-regression engine consumes `trapecio` (it always
passes the grid column and a squared-difference column). -/
noncomputable def trapecio_colval (n : Nat) (x y : Nat → ℝ) : ℝ :=
  (1/2) * ∑ i in Finset.range (n - 1), (x (i+1) - x i) * (y (i+1) + y i)

/--
Embedding of `eucdistance1` (NadarayaRegression.h, lines 67-78): pairwise curve
distance matrix `distancias(i,j) = sqrt(trapecio(t, ((X.row(i)-X.row(j)) %
(X.row(i)-X.row(j))).t())(0))` for curves sampled at `mg` grid points `t`.
The source requires `t` to be an `mg × 1` column with `mg ≥ 2` for `trapecio`
to succeed (grid length 1 aborts); the model is total in those parameters. -/
noncomputable def eucdistance1 (mg : Nat) (X : Nat → Nat → ℝ) (t : Nat → ℝ) :
    Nat → Nat → ℝ :=
  fun i j =>
    Real.sqrt (trapecio_colval mg t (fun k => (X i k - X j k) * (X i k - X j k)))

/-- Embedding of `gaussiankernelinicial` (NadarayaRegression.h, lines 96-100),
entrywise form: `(2/sqrt(2*pi)) * exp(-(x/h)*(x/h)*0.5)`.  The source maps this
over a distance vector; the model applies it entrywise at the use sites. -/
noncomputable def gaussiankernelinicial (x h : ℝ) : ℝ :=
  (2 / Real.sqrt (2 * Real.pi)) * Real.exp (-((x / h) * (x / h)) * (1/2))

/-- Result record of the kernel-regression engine (`nadaraya_struct`,
NadarayaRegression.h, lines 30-37), with each matrix as an entry function. -/
structure nadaraya_struct where
  prediction : Nat → Nat → ℝ
  residuals : Nat → Nat → ℝ
  r2 : Nat → ℝ
  error : Nat → ℝ
  r2_global : Nat → Nat → ℝ

/--
Embedding of `nadayara_regression` (NadarayaRegression.h, lines 157-258) over `ℝ`.
Matrices are entry functions with intended dimensions `X : n × mg` (training
curves), `t : mg × 1` grid column, `Y : n × 1` outcomes, `hs : nh × 1` bandwidths,
`indices1 : n1x × n1p` training-fold indices and `indices2 : n2x × n1p`
validation-fold indices; every loop of the source writes each output entry exactly
once from read-only inputs, so each matrix is its entrywise closed form:
* `prediction(i,j) = sum(kernel(distancias.row(i), hs(j)) % Y) /
  sum(kernel(distancias.row(i), hs(j)))` (lines 235-241),
* `residuals(i,j) = Y(i) - prediction(i,j)` (line 247),
* `error(j) = sum of squared in-sample residuals` (line 244),
* `r2(j) = 1 - error(j) / sum((Y - mean(Y))²)` (lines 162-165, 246-248),
* `r2_global(j,l)`: fold `l` slices `distancias` to validation rows and training
  columns (`distancias.rows(indices2.col(l)).cols(indices1.col(l))`, lines
  202-203), predicts each validation row from the training outcomes
  `Y1 = Y.rows(indices1.col(l))` (lines 213-219), and stores
  `sum((Y2 - predictions)²)` (lines 221-225) - the fold's raw sum of squared
  validation errors (the normalized-R² line 223 is commented out in the source).
-/
noncomputable def nadayara_regression (n mg n1x n2x : Nat) (X : Nat → Nat → ℝ)
    (t : Nat → ℝ) (Y : Nat → ℝ) (hs : Nat → ℝ)
    (indices1 indices2 : Nat → Nat → Nat) : nadaraya_struct :=
  let distancias := eucdistance1 mg X t
  let media := (∑ i in Finset.range n, Y i) / n
  let pred := fun i j =>
    (∑ k in Finset.range n, gaussiankernelinicial (distancias i k) (hs j) * Y k) /
      (∑ k in Finset.range n, gaussiankernelinicial (distancias i k) (hs j))
  let predval := fun l j i =>
    (∑ k in Finset.range n1x,
        gaussiankernelinicial (distancias (indices2 i l) (indices1 k l)) (hs j) *
          Y (indices1 k l)) /
      (∑ k in Finset.range n1x,
        gaussiankernelinicial (distancias (indices2 i l) (indices1 k l)) (hs j))
  { prediction := pred
    residuals := fun i j => Y i - pred i j
    r2 := fun j =>
      1 - (∑ i in Finset.range n, (Y i - pred i j) * (Y i - pred i j)) /
        (∑ i in Finset.range n, (Y i - media) * (Y i - media))
    error := fun j => ∑ i in Finset.range n, (Y i - pred i j) * (Y i - pred i j)
    r2_global := fun j l =>
      ∑ i in Finset.range n2x,
        (Y (indices2 i l) - predval l j i) * (Y (indices2 i l) - predval l j i) }

/--
Modelled from the spec (§4.5 step 3): the out-of-fold Nadaraya-Watson sum of
squared validation errors of one fold - for each validation row, the kernel-weighted
prediction built from that fold's training outcomes only, accumulated as a raw sum
of squared errors.  This is the quantity the specification asserts the engine
stores, written independently of the engine's data plumbing; `dist` is the
self-distance matrix, `train`/`valid` the fold's index columns.
-/
noncomputable def spec_fold_sse (n1x n2x : Nat) (dist : Nat → Nat → ℝ) (Y : Nat → ℝ)
    (h : ℝ) (train valid : Nat → Nat) : ℝ :=
  ∑ i in Finset.range n2x,
    (Y (valid i) -
      (∑ k in Finset.range n1x, gaussiankernelinicial (dist (valid i) (train k)) h * Y (train k)) /
        (∑ k in Finset.range n1x, gaussiankernelinicial (dist (valid i) (train k)) h)) ^ 2

/--
Embedding of `nadayara_predicion` (NadarayaRegression.h, lines 264-315).
`prediccionesfinales` is declared uninitialized (modelled as the zero matrix) and
the loop over the partition columns `l = 0, ..., n1p-1` overwrites it wholesale
with `prediciones2`, the per-bandwidth weighted predictions of column `l`
(`aux3x(i) = sum(auxx % Y1)/sum(auxx)`, lines 300-309), so the fold over the
column list is kept explicit.  The unused `media`/`mediavectorial` (lines 269-270)
are omitted. -/
noncomputable def nadayara_predicion (mg n1x n1p n2x : Nat) (X : Nat → Nat → ℝ)
    (t : Nat → ℝ) (Y : Nat → ℝ) (hs : Nat → ℝ)
    (indices1 indices2 : Nat → Nat → Nat) : Nat → Nat → ℝ :=
  let distancias := eucdistance1 mg X t
  let pred2 := fun l (i j : Nat) =>
    (∑ k in Finset.range n1x,
        gaussiankernelinicial (distancias (indices2 i l) (indices1 k l)) (hs j) *
          Y (indices1 k l)) /
      (∑ k in Finset.range n1x,
        gaussiankernelinicial (distancias (indices2 i l) (indices1 k l)) (hs j))
  (List.range n1p).foldl (fun _ l => pred2 l) (fun _ _ => 0)

/-! ### Shared helper lemmas -/

theorem sum_map_range (n : Nat) (f : Nat → ℚ) :
    ((List.range n).map f).sum = ∑ i in Finset.range n, f i := by
  induction n with
  | zero => simp
  | succ k ih =>
    rw [List.range_succ, List.map_append, List.sum_append, Finset.sum_range_succ, ih]
    simp

theorem map_getD_range {α : Type} (l : List α) (d : α) :
    (List.range l.length).map (fun i => l.getD i d) = l := by
  induction l with
  | nil => rfl
  | cons a t ih =>
    rw [List.length_cons, List.range_succ_eq_map, List.map_cons, List.map_map]
    simp only [List.getD_cons_zero, Function.comp_def, List.getD_cons_succ]
    rw [ih]

theorem transposeM_single_row (l : List ℚ) :
    transposeM [l] = l.map (fun a => [a]) := by
  unfold transposeM ncolsM
  simp only [List.headD_cons, List.map_cons, List.map_nil]
  have h := map_getD_range l 0
  calc (List.range l.length).map (fun j => [(([l] : Mat).getD 0 []).getD j 0])
      = (List.range l.length).map ((fun a => [a]) ∘ (fun j => l.getD j 0)) := rfl
    _ = ((List.range l.length).map (fun j => l.getD j 0)).map (fun a => [a]) := by
        rw [List.map_map]
    _ = l.map (fun a => [a]) := by rw [h]

theorem getD_map_entry (l : List ℚ) (i : Nat) (h : i < l.length) :
    ((l.map (fun a => [a])).getD i []).getD 0 0 = l.getD i 0 := by
  have h1 : (l.map (fun a => [a])).getD i [] = [l[i]] := by
    rw [List.getD_eq_getElem?_getD, List.getElem?_map, List.getElem?_eq_getElem h]
    rfl
  rw [h1]
  simp [List.getD_eq_getElem?_getD, List.getElem?_eq_getElem h]

theorem ncolsM_map_single (l : List ℚ) (h : l ≠ []) :
    ncolsM (l.map (fun a => [a])) = 1 := by
  cases l with
  | nil => exact absurd rfl h
  | cons a t => rfl

theorem find_index_loop_no_match (C : Mat) (r : List ℚ)
    (h : ∀ c ∈ C, approx_equal r c (1/500) = false) :
    ∀ i, find_index_loop C r i = 0 := by
  induction C with
  | nil => intro i; rfl
  | cons c cs ih =>
    intro i
    unfold find_index_loop
    rw [h c (List.mem_cons_self c cs)]
    simp only [Bool.false_eq_true, if_false]
    exact ih (fun c2 hc => h c2 (List.mem_cons_of_mem c hc)) (i+1)

theorem range_foldl_const {α : Type} (g : Nat → α) (z : α) (k : Nat) (hk : 1 ≤ k) :
    List.foldl (fun _ l => g l) z (List.range k) = g (k - 1) := by
  cases k with
  | zero => omega
  | succ k2 => rw [List.range_succ, List.foldl_append]; rfl

/-! ### Claim theorems -/

/-- C10 (confirmed): in row canonicalization, the representative lookup
`find_index` returns index 0 whenever the row matches no canonical row within the
`0.002` absolute tolerance - an unmatched row is silently assigned to the first
representative rather than raising an error. -/
theorem find_index_no_match_zero (C : Mat) (rowA : List ℚ)
    (h : ∀ c ∈ C, approx_equal rowA c (1/500) = false) :
    find_index C rowA = 0 :=
  find_index_loop_no_match C rowA h 0

theorem find_index_no_match_zero_witness :
    (∀ c ∈ ([[1], [2]] : Mat), approx_equal [5] c (1/500) = false) ∧
      find_index [[1], [2]] [5] = 0 :=
  ⟨by decide, find_index_no_match_zero [[1], [2]] [5] (by decide)⟩


theorem trapecio_col_success (xs ys : List ℚ) (hlen : ys.length = xs.length)
    (h2 : 2 ≤ xs.length) :
    trapecio (xs.map (fun a => [a])) (ys.map (fun a => [a])) =
      Except.ok [[(1/2) * ∑ i in Finset.range (xs.length - 1),
        (xs.getD (i+1) 0 - xs.getD i 0) * (ys.getD (i+1) 0 + ys.getD i 0)]] := by
  have hxs : xs ≠ [] := by intro h; rw [h] at h2; simp at h2
  have hys : ys ≠ [] := by intro h; rw [h] at hlen; simp at hlen; omega
  simp only [trapecio, List.length_map, hlen, ncolsM_map_single xs hxs,
    ncolsM_map_single ys hys, ne_eq, not_true_eq_false, or_self, if_false,
    ite_true, if_true, Nat.not_lt.mpr h2, not_false_eq_true, ite_false]
  rw [List.map_map, List.map_map]
  have e1 : ((fun (r : List ℚ) => r.headD 0) ∘ fun a => [a]) = id := funext (fun a => rfl)
  rw [e1, List.map_id, List.map_id, sum_map_range]

theorem trapecio_row_success (xs ys : List ℚ) (hlen : ys.length = xs.length)
    (h2 : 2 ≤ xs.length) :
    trapecio [xs] [ys] =
      Except.ok [[(1/2) * ∑ i in Finset.range (xs.length - 1),
        (xs.getD (i+1) 0 - xs.getD i 0) * (ys.getD (i+1) 0 + ys.getD i 0)]] := by
  have hxs : xs ≠ [] := by intro h; rw [h] at h2; simp at h2
  have hys : ys ≠ [] := by intro h; rw [h] at hlen; simp at hlen; omega
  have hx1 : ncolsM [xs] = xs.length := rfl
  simp only [trapecio, hx1, show ncolsM [ys] = ys.length from rfl, hlen,
    List.length_cons, List.length_nil, ne_eq, not_true_eq_false, or_self, if_false,
    ite_false, ite_true]
  rw [if_neg (show ¬ xs.length = 1 by omega)]
  rw [transposeM_single_row xs, transposeM_single_row ys]
  simp only [List.length_map, ncolsM_map_single xs hxs, Nat.not_lt.mpr h2,
    not_false_eq_true, ite_false, ne_eq, not_true_eq_false, if_false]
  rw [if_neg (show ¬ xs.length = 1 by omega)]
  rw [List.map_map, List.map_map]
  have e1 : ((fun (r : List ℚ) => r.headD 0) ∘ fun a => [a]) = id := funext (fun a => rfl)
  rw [e1, List.map_id, List.map_id, sum_map_range]

/-- C6 counterexample: an equally shaped 2×2 pair is rejected with a dimension
error instead of yielding per-column totals - after the internal transpose the
cumulative-sum assignment has mismatched dimensions (NadarayaRegression.h, lines
56-61). -/
theorem trapecio_square_matrix_error :
    trapecio [[0, 1], [2, 3]] [[0, 1], [2, 3]] =
      Except.error "arma error: incompatible matrix dimensions" := by decide

/-- C6 amended: for vector-shaped pairs of equal length at least 2 - a column pair,
or a row pair that is transposed to the canonical column orientation internally -
`trapecio` returns the total trapezoidal integral as a single value; pairs with both
dimensions at least 2 fail with a dimension error (see the counterexample), so the
returned single value exists only for vector inputs. -/
theorem trapecio_vector_total (xs ys : List ℚ) (hlen : ys.length = xs.length)
    (h2 : 2 ≤ xs.length) :
    trapecio (xs.map (fun a => [a])) (ys.map (fun a => [a])) =
      Except.ok [[(1/2) * ∑ i in Finset.range (xs.length - 1),
        (xs.getD (i+1) 0 - xs.getD i 0) * (ys.getD (i+1) 0 + ys.getD i 0)]] ∧
    trapecio [xs] [ys] =
      Except.ok [[(1/2) * ∑ i in Finset.range (xs.length - 1),
        (xs.getD (i+1) 0 - xs.getD i 0) * (ys.getD (i+1) 0 + ys.getD i 0)]] :=
  ⟨trapecio_col_success xs ys hlen h2, trapecio_row_success xs ys hlen h2⟩

theorem trapecio_vector_total_witness :
    (([2, 3] : List ℚ).length = ([0, 1] : List ℚ).length ∧ 2 ≤ ([0, 1] : List ℚ).length) ∧
      trapecio [[0], [1]] [[2], [3]] = Except.ok [[5/2]] ∧
      trapecio [[0, 1]] [[2, 3]] = Except.ok [[5/2]] :=
  ⟨⟨rfl, by decide⟩,
    (trapecio_vector_total [0, 1] [2, 3] rfl (by decide)).1.trans (by decide),
    (trapecio_vector_total [0, 1] [2, 3] rfl (by decide)).2.trans (by decide)⟩

/-- C8 (confirmed): the self-distance matrix of the functional distance operation is
symmetric and has a zero diagonal: the integrand of entry `(i,j)` is the same
squared difference as for `(j,i)`, and the diagonal integrand vanishes, so its
integral and square root are zero. -/
theorem eucdistance1_symm_diag_zero (mg : Nat) (X : Nat → Nat → ℝ) (t : Nat → ℝ)
    (i j : Nat) :
    eucdistance1 mg X t i j = eucdistance1 mg X t j i ∧ eucdistance1 mg X t i i = 0 := by
  constructor
  · unfold eucdistance1 trapecio_colval
    congr 2
    apply Finset.sum_congr rfl
    intro k _
    ring
  · unfold eucdistance1 trapecio_colval
    simp [sub_self]

theorem gaussiankernelinicial_pos (x h : ℝ) : 0 < gaussiankernelinicial x h := by
  unfold gaussiankernelinicial
  have h2pi : (0:ℝ) < Real.sqrt (2 * Real.pi) :=
    Real.sqrt_pos.mpr (by positivity)
  positivity

/-- C9 (confirmed): over exact real arithmetic, every weight of the Gaussian-like
kernel is strictly positive for a positive bandwidth, so the denominator
`sum(kernel weights)` of each Nadaraya-Watson prediction ratio over a nonempty
training set is nonzero and the prediction is well-defined. -/
theorem gaussiankernel_pos_prediction_defined (x h : ℝ) (hq : 0 < h)
    (n : Nat) (hn : 0 < n) (d : Nat → ℝ) :
    0 < gaussiankernelinicial x h ∧
      (∑ k in Finset.range n, gaussiankernelinicial (d k) h) ≠ 0 := by
  refine ⟨gaussiankernelinicial_pos x h, ?_⟩
  have hp : 0 < ∑ k in Finset.range n, gaussiankernelinicial (d k) h :=
    Finset.sum_pos (fun k _ => gaussiankernelinicial_pos (d k) h)
      (Finset.nonempty_range_iff.mpr (Nat.pos_iff_ne_zero.mp hn))
  exact hp.ne'

theorem gaussiankernel_pos_prediction_defined_witness :
    ((0:ℝ) < 1 ∧ 0 < 1) ∧
      (0 < gaussiankernelinicial 0 1 ∧
        (∑ k in Finset.range 1, gaussiankernelinicial ((fun _ => (0:ℝ)) k) 1) ≠ 0) :=
  ⟨⟨by norm_num, Nat.one_pos⟩,
    gaussiankernel_pos_prediction_defined 0 1 (by norm_num) 1 Nat.one_pos (fun _ => 0)⟩

/-- C4 (confirmed): entry `(j, l)` of the cross-validation output matrix stored in
the result field named `r2_global` equals the raw sum of squared validation errors
of fold `l` at bandwidth `j` - each validation row predicted with kernel weights
over only that fold's training outcomes - and not a normalized R² value (the
normalization line is commented out in the source). -/
theorem r2_global_is_fold_sse (n mg n1x n2x : Nat) (X : Nat → Nat → ℝ)
    (t : Nat → ℝ) (Y : Nat → ℝ) (hs : Nat → ℝ)
    (indices1 indices2 : Nat → Nat → Nat) (j l : Nat) :
    (nadayara_regression n mg n1x n2x X t Y hs indices1 indices2).r2_global j l =
      spec_fold_sse n1x n2x (eucdistance1 mg X t) Y (hs j)
        (fun k => indices1 k l) (fun i => indices2 i l) := by
  simp only [nadayara_regression, spec_fold_sse]
  apply Finset.sum_congr rfl
  intro i _
  ring

/-- C5 (confirmed): the prediction-only operation returns exactly the
per-bandwidth weighted predictions computed from the last column `p-1` of the
supplied partition index matrices; the predictions of every earlier column are
computed and then overwritten, contributing nothing to the returned matrix. -/
theorem nadayara_predicion_last_column (mg n1x n1p n2x : Nat) (X : Nat → Nat → ℝ)
    (t : Nat → ℝ) (Y : Nat → ℝ) (hs : Nat → ℝ)
    (indices1 indices2 : Nat → Nat → Nat) (hp : 1 ≤ n1p) :
    nadayara_predicion mg n1x n1p n2x X t Y hs indices1 indices2 =
      fun i j =>
        (∑ k in Finset.range n1x,
            gaussiankernelinicial
              (eucdistance1 mg X t (indices2 i (n1p - 1)) (indices1 k (n1p - 1)))
              (hs j) * Y (indices1 k (n1p - 1))) /
          (∑ k in Finset.range n1x,
            gaussiankernelinicial
              (eucdistance1 mg X t (indices2 i (n1p - 1)) (indices1 k (n1p - 1)))
              (hs j)) :=
  range_foldl_const
    (fun l (i j : Nat) =>
      (∑ k in Finset.range n1x,
          gaussiankernelinicial
            (eucdistance1 mg X t (indices2 i l) (indices1 k l)) (hs j) *
            Y (indices1 k l)) /
        (∑ k in Finset.range n1x,
          gaussiankernelinicial
            (eucdistance1 mg X t (indices2 i l) (indices1 k l)) (hs j)))
    (fun _ _ => 0) n1p hp

theorem nadayara_predicion_last_column_witness :
    1 ≤ 1 ∧
      nadayara_predicion 2 1 1 1 (fun _ _ => 0) (fun _ => 0) (fun _ => 0) (fun _ => 1)
          (fun _ _ => 0) (fun _ _ => 0) =
        fun i j =>
          (∑ k in Finset.range 1,
              gaussiankernelinicial
                (eucdistance1 2 (fun _ _ => 0) (fun _ => 0) ((fun _ _ => 0) i (1 - 1))
                  ((fun _ _ => 0) k (1 - 1)))
                ((fun _ => (1:ℝ)) j) * (fun _ => (0:ℝ)) ((fun _ _ => 0) k (1 - 1))) /
            (∑ k in Finset.range 1,
              gaussiankernelinicial
                (eucdistance1 2 (fun _ _ => 0) (fun _ => 0) ((fun _ _ => 0) i (1 - 1))
                  ((fun _ _ => 0) k (1 - 1)))
                ((fun _ => (1:ℝ)) j)) :=
  ⟨Nat.le_refl 1,
    nadayara_predicion_last_column 2 1 1 1 (fun _ _ => 0) (fun _ => 0) (fun _ => 0)
      (fun _ => 1) (fun _ _ => 0) (fun _ _ => 0) (Nat.le_refl 1)⟩

theorem getD_set_self_lt {α : Type} (l : List α) (i : Nat) (a d : α) (h : i < l.length) :
    (l.set i a).getD i d = a := by
  rw [List.getD_eq_getElem?_getD, List.getElem?_set_eq_of_lt a h]
  rfl

theorem getD_set_ne {α : Type} (l : List α) (i j : Nat) (a d : α) (h : i ≠ j) :
    (l.set i a).getD j d = l.getD j d := by
  rw [List.getD_eq_getElem?_getD, List.getD_eq_getElem?_getD, List.getElem?_set_ne h]

theorem qp_loop_not_mem (qp : Mat → List ℚ → Mat → List ℚ → Option (List ℚ))
    (c : List ℚ) (Cm D V1 : Mat) (v1 : List ℚ) (V2 : Mat) (dec : List Nat) :
    ∀ (st : Mat × List ℚ) (i : Nat), i ∉ dec →
      (qp_loop qp c Cm D V1 v1 V2 dec st).1.getD i [] = st.1.getD i [] ∧
      (qp_loop qp c Cm D V1 v1 V2 dec st).2.getD i 0 = st.2.getD i 0 := by
  induction dec with
  | nil => intro st i _; exact ⟨rfl, rfl⟩
  | cons e rest ih =>
    intro st i hi
    have hne : e ≠ i := fun h => hi (h ▸ List.mem_cons_self e rest)
    have hi2 : i ∉ rest := fun h => hi (List.mem_cons_of_mem e h)
    have hr := ih (qp_step qp c Cm D V1 v1 V2 st e) i hi2
    unfold qp_loop at hr ⊢
    rw [List.foldl_cons]
    constructor
    · rw [hr.1]
      exact getD_set_ne st.1 e i _ [] hne
    · rw [hr.2]
      exact getD_set_ne st.2 e i _ 0 hne

theorem qp_loop_fail_mem (qp : Mat → List ℚ → Mat → List ℚ → Option (List ℚ))
    (hfail : ∀ D2 d V v, qp D2 d V v = none)
    (c : List ℚ) (Cm D V1 : Mat) (v1 : List ℚ) (V2 : Mat)
    (hC : Cm.length = c.length) (dec : List Nat) :
    ∀ (st : Mat × List ℚ) (i : Nat), i ∈ dec → i < st.1.length → i < st.2.length →
      (qp_loop qp c Cm D V1 v1 V2 dec st).1.getD i [] = List.replicate c.length 0 ∧
      (qp_loop qp c Cm D V1 v1 V2 dec st).2.getD i 0 = 0 := by
  induction dec with
  | nil => intro st i hi _ _; exact absurd hi (List.not_mem_nil i)
  | cons e rest ih =>
    intro st i hi h1 h2
    unfold qp_loop at ih ⊢
    rw [List.foldl_cons]
    by_cases hmem : i ∈ rest
    · refine ih (qp_step qp c Cm D V1 v1 V2 st e) i hmem ?_ ?_
      · simpa [qp_step] using h1
      · simpa [qp_step] using h2
    · have hie : i = e := by
        rcases List.mem_cons.mp hi with h | h
        · exact h
        · exact absurd h hmem
      subst hie
      have hpres := qp_loop_not_mem qp c Cm D V1 v1 V2 rest
        (qp_step qp c Cm D V1 v1 V2 st i) i hmem
      unfold qp_loop at hpres
      have hdlen : (((st.2.getD i 0 +
          (List.zipWith (fun a b => a * b) c (st.1.getD i [])).sum) ::
          List.zipWith (fun a b => a + b) (c.map (fun x => st.2.getD i 0 * x))
            (mat_vec Cm (st.1.getD i []))).map (fun x => -x)).length = c.length + 1 := by
        simp [mat_vec, hC]
      constructor
      · rw [hpres.1]
        simp only [qp_step, hfail, Option.getD_none]
        rw [getD_set_self_lt _ _ _ _ h1, hdlen, List.replicate_succ, List.tail_cons]
      · rw [hpres.2]
        simp only [qp_step, hfail, Option.getD_none]
        rw [getD_set_self_lt _ _ _ _ h2, hdlen, List.replicate_succ, List.headD_cons]

/-- C1 counterexample: running the engine with every quadratic-program call failing
(mocked solver), the flagged row's returned quantile density is the zero vector,
while its unconstrained OLS fit is `[-2,-2,-2]` - the row is NOT left at the OLS
fit.  (The fitted quantile-at-zero is likewise overwritten with `tmp(0) = 0`.) -/
theorem qp_failure_zeroes_counterexample :
    (wasserstein_regression solve_rhs_oracle qp_fail_oracle [[1]] [[-1,-1,-1]] [[5]] [[2]]
        [0, 1/2, 1] (1/1000000)).map (fun res => res.qfit) = Except.ok [[0, 0, 0]] ∧
      sel_rows (wr_qall solve_rhs_oracle [[1]] [[-1,-1,-1]] [[2]])
          (((wr_xall_ic [[2]] [[1]]).2.drop 1).take 1) = [[-2, -2, -2]] ∧
      ([[(0:ℚ), 0, 0]] : Mat) ≠ [[-2, -2, -2]] :=
  ⟨by decide, by decide, by decide⟩

/-- C1 amended: when the quadratic-program solve fails (throws) for a flagged row,
the warning is printed and computation continues for all other rows, whose values
are unaffected; but the failed row's fitted quantile-at-zero and quantile-density
values are NOT retained as the unconstrained OLS fit - they are overwritten with
the zero-initialized solver output (`zeros(d.n_elem)`), i.e. a zero quantile-density
row and a zero quantile-at-zero value. -/
theorem qp_loop_failure_sets_row_to_zero
    (quadprog : Mat → List ℚ → Mat → List ℚ → Option (List ℚ))
    (hfail : ∀ D2 d V v, quadprog D2 d V v = none)
    (c : List ℚ) (Cm D V1 : Mat) (v1 : List ℚ) (V2 : Mat) (dec : List Nat)
    (qall : Mat) (Q0all : List ℚ) (i : Nat) (hC : Cm.length = c.length)
    (h1 : i < qall.length) (h2 : i < Q0all.length) :
    (i ∈ dec →
      (qp_loop quadprog c Cm D V1 v1 V2 dec (qall, Q0all)).1.getD i [] =
          List.replicate c.length 0 ∧
        (qp_loop quadprog c Cm D V1 v1 V2 dec (qall, Q0all)).2.getD i 0 = 0) ∧
    (i ∉ dec →
      (qp_loop quadprog c Cm D V1 v1 V2 dec (qall, Q0all)).1.getD i [] = qall.getD i [] ∧
        (qp_loop quadprog c Cm D V1 v1 V2 dec (qall, Q0all)).2.getD i 0 = Q0all.getD i 0) :=
  ⟨fun hi => qp_loop_fail_mem quadprog hfail c Cm D V1 v1 V2 hC dec (qall, Q0all) i hi h1 h2,
   fun hi => qp_loop_not_mem quadprog c Cm D V1 v1 V2 dec (qall, Q0all) i hi⟩

theorem qp_loop_failure_sets_row_to_zero_witness :
    ((∀ D2 d V v, qp_fail_oracle D2 d V v = none) ∧ ([[2]] : Mat).length = 1 ∧
        0 < ([[7]] : Mat).length ∧ 0 < ([9] : List ℚ).length) ∧
      ((0 ∈ [0] →
          (qp_loop qp_fail_oracle [1] [[2]] [] [] [] [] [0] ([[7]], [9])).1.getD 0 [] = [0] ∧
            (qp_loop qp_fail_oracle [1] [[2]] [] [] [] [] [0] ([[7]], [9])).2.getD 0 0 = 0) ∧
        (0 ∉ [0] →
          (qp_loop qp_fail_oracle [1] [[2]] [] [] [] [] [0] ([[7]], [9])).1.getD 0 [] = [7] ∧
            (qp_loop qp_fail_oracle [1] [[2]] [] [] [] [] [0] ([[7]], [9])).2.getD 0 0 = 9)) :=
  ⟨⟨fun _ _ _ _ => rfl, rfl, by decide, by decide⟩,
    qp_loop_failure_sets_row_to_zero qp_fail_oracle (fun _ _ _ _ => rfl) [1] [[2]] [] []
      [] [] [0] [[7]] [9] 0 rfl (by decide) (by decide)⟩

/-- C2 counterexample: a grid with the correct endpoints that is NOT strictly
increasing (`[0, 5, 1]`) passes validation and the engine runs to completion -
monotonicity is never checked. -/
theorem grid_not_increasing_accepted :
    ¬ List.Sorted (· < ·) ([0, 5, 1] : List ℚ) ∧
      (wasserstein_regression solve_rhs_oracle qp_fail_oracle [[1]] [[1, 1, 1]] [[0]] [[2]]
          [0, 5, 1] (1/1000000)).isOk = true :=
  ⟨by decide, by decide⟩

/-- C2 amended: the engine fails immediately, before any fitting, when the grid
length differs from the number of quantile-density columns or the grid does not
start at 0 or does not end at 1; strict monotonicity of the grid is NOT validated
(see the counterexample). -/
theorem wasserstein_grid_endpoint_validation (solve : Mat → Mat → Mat)
    (quadprog : Mat → List ℚ → Mat → List ℚ → Option (List ℚ))
    (xfit q Q0 xpred : Mat) (t : List ℚ) (qdmin : ℚ)
    (h : t.length ≠ ncolsM q ∨ t.getD 0 0 ≠ 0 ∨ t.getD (t.length - 1) 0 ≠ 1) :
    (wasserstein_regression solve quadprog xfit q Q0 xpred t qdmin).isOk = false := by
  simp only [wasserstein_regression]
  by_cases hc1 : t.length ≠ ncolsM q
  · rw [if_pos hc1]
    rfl
  · rw [if_neg hc1]
    by_cases hc2 : t.getD 0 0 ≠ 0 ∨ t.getD (t.length - 1) 0 ≠ 1
    · rw [if_pos hc2]
      rfl
    · exfalso
      push_neg at hc1 hc2
      rcases h with h | h | h
      · exact absurd hc1 h
      · exact absurd hc2.1 h
      · exact absurd hc2.2 h

theorem wasserstein_grid_endpoint_validation_witness :
    (([1, 1] : List ℚ).length ≠ ncolsM [[1, 1]] ∨ ([1, 1] : List ℚ).getD 0 0 ≠ 0 ∨
        ([1, 1] : List ℚ).getD (([1, 1] : List ℚ).length - 1) 0 ≠ 1) ∧
      (wasserstein_regression solve_rhs_oracle qp_fail_oracle [[1]] [[1, 1]] [[0]] [[2]]
          [1, 1] (1/1000000)).isOk = false :=
  ⟨by decide,
    wasserstein_grid_endpoint_validation solve_rhs_oracle qp_fail_oracle [[1]] [[1, 1]]
      [[0]] [[2]] [1, 1] (1/1000000) (by decide)⟩

theorem wr_dec_eq_nil_iff (M : Mat) :
    wr_dec M = [] ↔ ∀ row ∈ M, ∀ x ∈ row, ¬ x < 0 := by
  unfold wr_dec
  rw [List.filter_eq_nil_iff]
  constructor
  · intro h row hrow x hx hneg
    rcases List.mem_iff_getElem.mp hrow with ⟨i, hi, hrowi⟩
    apply h i (List.mem_range.mpr hi)
    rw [List.getD_eq_getElem?_getD, List.getElem?_eq_getElem hi]
    simp only [Option.getD_some, hrowi, List.any_eq_true, decide_eq_true_eq]
    exact ⟨x, hx, hneg⟩
  · intro h i hi
    simp only [List.any_eq_true, decide_eq_true_eq, not_exists, not_and]
    intro x hx
    have hilen := List.mem_range.mp hi
    rw [List.getD_eq_getElem?_getD, List.getElem?_eq_getElem hilen] at hx
    exact h M[i] (List.getElem_mem hilen) x hx

theorem except_isOk_exists {e2 : Type} {a2 : Type} (e : Except e2 a2)
    (h : e.isOk = true) : ∃ a, e = Except.ok a := by
  cases e with
  | error err => exact absurd h (by simp [Except.isOk, Except.toBool])
  | ok a => exact ⟨a, rfl⟩

theorem except_map_ok_inv {e2 a2 b2 : Type} (e : Except e2 a2) (f : a2 → b2) (b : b2)
    (h : e.map f = Except.ok b) : ∃ a, e = Except.ok a ∧ b = f a := by
  cases e with
  | error err => simp [Except.map] at h
  | ok a =>
    refine ⟨a, rfl, ?_⟩
    simpa [Except.map] using h.symm

/-- C7 (confirmed): the engine returns `QP_used = 1` exactly when some canonical
covariate row's unconstrained OLS-predicted quantile-density vector (`wr_qall`)
contains a strictly negative entry; otherwise it returns `QP_used = 0` and the
fitted quantile densities are exactly the rows of the unmodified OLS prediction
selected by the canonical index map. -/
theorem wasserstein_QP_used_iff (solve : Mat → Mat → Mat)
    (quadprog : Mat → List ℚ → Mat → List ℚ → Option (List ℚ))
    (xfit q Q0 xpred : Mat) (t : List ℚ) (qdmin : ℚ)
    (hok : (wasserstein_regression solve quadprog xfit q Q0 xpred t qdmin).isOk = true) :
    ((wasserstein_regression solve quadprog xfit q Q0 xpred t qdmin).map
        (fun res => res.QP_used) = Except.ok 1 ↔
      ∃ row ∈ wr_qall solve xfit q xpred, ∃ x ∈ row, x < 0) ∧
    ((wasserstein_regression solve quadprog xfit q Q0 xpred t qdmin).map
        (fun res => res.QP_used) = Except.ok 0 →
      (wasserstein_regression solve quadprog xfit q Q0 xpred t qdmin).map
          (fun res => res.qfit) =
        Except.ok (sel_rows (wr_qall solve xfit q xpred)
          (((wr_xall_ic xpred xfit).2.drop xpred.length).take q.length))) := by
  have hchar := wr_dec_eq_nil_iff (wr_qall solve xfit q xpred)
  simp only [wasserstein_regression] at hok ⊢
  by_cases hc1 : t.length ≠ ncolsM q
  · rw [if_pos hc1] at hok
    exact absurd hok (by simp [Except.isOk, Except.toBool])
  rw [if_neg hc1] at hok ⊢
  by_cases hc2 : t.getD 0 0 ≠ 0 ∨ t.getD (t.length - 1) 0 ≠ 1
  · rw [if_pos hc2] at hok
    exact absurd hok (by simp [Except.isOk, Except.toBool])
  rw [if_neg hc2] at hok ⊢
  obtain ⟨res, hres⟩ := except_isOk_exists _ hok
  obtain ⟨Qall, hX, hmk⟩ := except_map_ok_inv _ _ _ hres
  rw [hX]
  subst hmk
  simp only [Except.map, Except.ok.injEq]
  by_cases hdec : (wr_dec (wr_qall solve xfit q xpred)).isEmpty
  · rw [if_pos hdec, if_pos hdec]
    have hnil : wr_dec (wr_qall solve xfit q xpred) = [] := List.isEmpty_iff.mp hdec
    have hall := hchar.mp hnil
    constructor
    · constructor
      · intro h0
        exact absurd h0 (by decide)
      · rintro ⟨row, hrow, x, hx, hneg⟩
        exact absurd hneg (hall row hrow x hx)
    · intro _
      rfl
  · rw [if_neg hdec]
    constructor
    · constructor
      · intro _
        by_contra hnex
        push_neg at hnex
        have hnil : wr_dec (wr_qall solve xfit q xpred) = [] :=
          hchar.mpr (fun row hrow x hx => not_lt.mpr (hnex row hrow x hx))
        rw [hnil] at hdec
        exact hdec rfl
      · intro _
        rfl
    · intro h0
      exact absurd h0 (by decide)

theorem wasserstein_QP_used_iff_witness :
    (wasserstein_regression solve_rhs_oracle qp_fail_oracle [[1]] [[1, 1, 1]] [[0]] [[2]]
        [0, 1/2, 1] (1/1000000)).isOk = true ∧
      (((wasserstein_regression solve_rhs_oracle qp_fail_oracle [[1]] [[1, 1, 1]] [[0]] [[2]]
            [0, 1/2, 1] (1/1000000)).map (fun res => res.QP_used) = Except.ok 1 ↔
          ∃ row ∈ wr_qall solve_rhs_oracle [[1]] [[1, 1, 1]] [[2]], ∃ x ∈ row, x < 0) ∧
        ((wasserstein_regression solve_rhs_oracle qp_fail_oracle [[1]] [[1, 1, 1]] [[0]] [[2]]
            [0, 1/2, 1] (1/1000000)).map (fun res => res.QP_used) = Except.ok 0 →
          (wasserstein_regression solve_rhs_oracle qp_fail_oracle [[1]] [[1, 1, 1]] [[0]] [[2]]
              [0, 1/2, 1] (1/1000000)).map (fun res => res.qfit) =
            Except.ok (sel_rows (wr_qall solve_rhs_oracle [[1]] [[1, 1, 1]] [[2]])
              (((wr_xall_ic [[2]] [[1]]).2.drop 1).take 1)))) :=
  ⟨by decide,
    wasserstein_QP_used_iff solve_rhs_oracle qp_fail_oracle [[1]] [[1, 1, 1]] [[0]] [[2]]
      [0, 1/2, 1] (1/1000000) (by decide)⟩

theorem approx_equal_iff (a b : List ℚ) (tol : ℚ) :
    approx_equal a b tol = true ↔
      (a.length = b.length ∧ ∀ p ∈ List.zip a b, |p.1 - p.2| ≤ tol) := by
  unfold approx_equal
  exact decide_eq_true_iff

theorem mem_zip_same {α : Type} (a : List α) (p : α × α) (hp : p ∈ List.zip a a) :
    p.1 = p.2 := by
  induction a with
  | nil => simp at hp
  | cons x t ih =>
    rcases List.mem_cons.mp hp with h | h
    · rw [h]
    · exact ih h

theorem approx_equal_refl (a : List ℚ) (tol : ℚ) (h : 0 ≤ tol) :
    approx_equal a a tol = true := by
  rw [approx_equal_iff]
  refine ⟨rfl, fun p hp => ?_⟩
  rw [mem_zip_same a p hp]
  simpa using h

theorem ic_scan_foldl_grows (l : Mat) : ∀ acc : Mat,
    acc <+: l.foldl (fun B row =>
      if B.any (fun b => approx_equal row b (1/500)) then B else B ++ [row]) acc := by
  induction l with
  | nil => intro acc; exact List.prefix_rfl
  | cons x xs ih =>
    intro acc
    refine List.IsPrefix.trans ?_ (ih _)
    dsimp only
    by_cases hx : acc.any (fun b => approx_equal x b (1/500))
    · rw [if_pos hx]
    · rw [if_neg hx]
      exact List.prefix_append acc [x]

theorem ic_scan_covers_aux (l : Mat) : ∀ acc : Mat, ∀ a ∈ l,
    ∃ b ∈ l.foldl (fun B row =>
      if B.any (fun b => approx_equal row b (1/500)) then B else B ++ [row]) acc,
        approx_equal a b (1/500) = true := by
  induction l with
  | nil => intro acc a ha; simp at ha
  | cons x xs ih =>
    intro acc a ha
    rw [List.foldl_cons]
    rcases List.mem_cons.mp ha with h | h
    · subst h
      by_cases hx : acc.any (fun b => approx_equal a b (1/500))
      · rw [if_pos hx]
        rcases List.any_eq_true.mp hx with ⟨b, hb, hab⟩
        exact ⟨b, (ic_scan_foldl_grows xs acc).subset hb, hab⟩
      · rw [if_neg hx]
        refine ⟨a, (ic_scan_foldl_grows xs (acc ++ [a])).subset ?_,
          approx_equal_refl a (1/500) (by norm_num)⟩
        simp
    · exact ih _ a h

theorem ic_scan_covers (A : Mat) (a : List ℚ) (ha : a ∈ A) :
    ∃ b ∈ ic_scan A, approx_equal a b (1/500) = true :=
  ic_scan_covers_aux A [] a ha

theorem cons_set_perm (a : Nat) (t : List Nat) (m : Nat) (hm : m < t.length) :
    List.Perm (t.getD m 0 :: t.set m a) (a :: t) := by
  have hsplit : t.take m ++ t[m] :: t.drop (m+1) = t := by
    rw [List.getElem_cons_drop]
    exact List.take_append_drop m t
  rw [List.getD_eq_getElem?_getD, List.getElem?_eq_getElem hm, Option.getD_some]
  rw [List.set_eq_take_cons_drop a hm]
  refine List.Perm.trans (List.Perm.cons t[m] List.perm_middle) ?_
  refine List.Perm.trans (List.Perm.swap a t[m] (t.take m ++ t.drop (m+1))) ?_
  refine List.Perm.cons a ?_
  refine List.Perm.trans List.perm_middle.symm ?_
  rw [hsplit]

theorem swap_idx_perm (l : List Nat) : ∀ i j : Nat, i < l.length → j < l.length →
    List.Perm (swap_idx l i j) l := by
  induction l with
  | nil => intro i j hi _; simp at hi
  | cons a t ih =>
    intro i j hi hj
    match i, j with
    | 0, 0 =>
      simp [swap_idx]
    | 0, m+1 =>
      have hm : m < t.length := Nat.lt_of_succ_lt_succ hj
      simp only [swap_idx, List.getD_cons_succ, List.getD_cons_zero,
        List.set_cons_zero, List.set_cons_succ]
      exact cons_set_perm a t m hm
    | n+1, 0 =>
      have hn : n < t.length := Nat.lt_of_succ_lt_succ hi
      simp only [swap_idx, List.getD_cons_succ, List.getD_cons_zero,
        List.set_cons_zero, List.set_cons_succ]
      exact cons_set_perm a t n hn
    | n+1, m+1 =>
      have hn : n < t.length := Nat.lt_of_succ_lt_succ hi
      have hm : m < t.length := Nat.lt_of_succ_lt_succ hj
      simp only [swap_idx, List.getD_cons_succ, List.set_cons_succ]
      exact List.Perm.cons a (ih n m hn hm)

theorem tie_inner_perm (B : Mat) (i : Nat) : ∀ (fuel j : Nat) (idx : List Nat),
    i < idx.length → j + fuel ≤ idx.length →
    List.Perm (tie_inner B i idx j fuel) idx := by
  intro fuel
  induction fuel with
  | zero => intro j idx _ _; rfl
  | succ f ih =>
    intro j idx hi hjf
    unfold tie_inner
    by_cases hbrk : (B.getD (idx.getD i 0) []).getD 0 0 < (B.getD (idx.getD j 0) []).getD 0 0
    · rw [if_pos hbrk]
    · rw [if_neg hbrk]
      have hj : j < idx.length := by omega
      by_cases hsw : is_smaller B (idx.getD i 0) (idx.getD j 0)
      · rw [if_pos hsw]
        have hperm := swap_idx_perm idx i j hi hj
        have hlen : (swap_idx idx i j).length = idx.length := hperm.length_eq
        refine List.Perm.trans (ih (j+1) (swap_idx idx i j) ?_ ?_) hperm
        · rw [hlen]; exact hi
        · rw [hlen]; omega
      · rw [if_neg hsw]
        exact ih (j+1) idx hi (by omega)

theorem tie_outer_foldl_perm (B : Mat) (L : List Nat) : ∀ idx : List Nat,
    (∀ i ∈ L, i + 1 ≤ idx.length) →
    List.Perm (L.foldl (fun acc i => tie_inner B i acc (i+1) (acc.length - (i+1))) idx) idx := by
  induction L with
  | nil => intro idx _; rfl
  | cons e rest ih =>
    intro idx hb
    rw [List.foldl_cons]
    have he : e + 1 ≤ idx.length := hb e (List.mem_cons_self e rest)
    have hperm : List.Perm (tie_inner B e idx (e+1) (idx.length - (e+1))) idx :=
      tie_inner_perm B e (idx.length - (e+1)) (e+1) idx (by omega) (by omega)
    have hlen := hperm.length_eq
    refine List.Perm.trans (ih _ ?_) hperm
    intro i hi
    rw [hlen]
    exact hb i (List.mem_cons_of_mem e hi)

theorem tie_outer_perm (B : Mat) (idx : List Nat) :
    List.Perm (tie_outer B idx) idx := by
  unfold tie_outer
  refine tie_outer_foldl_perm B (List.range (idx.length - 1)) idx ?_
  intro i hi
  have := List.mem_range.mp hi
  omega

theorem sort_index_perm (keys : List ℚ) :
    List.Perm (sort_index keys) (List.range keys.length) :=
  List.perm_insertionSort _ _

theorem ic_unique_rows_fst_perm (A : Mat) :
    List.Perm (ic_unique_rows A).1 (ic_scan A) := by
  unfold ic_unique_rows
  have h1 : List.Perm (tie_outer (ic_scan A)
      (sort_index ((ic_scan A).map (fun r => r.getD 0 0))))
      (List.range (ic_scan A).length) := by
    refine List.Perm.trans (tie_outer_perm _ _) ?_
    have := sort_index_perm ((ic_scan A).map (fun r => r.getD 0 0))
    rwa [List.length_map] at this
  refine List.Perm.trans (h1.map (fun i => (ic_scan A).getD i [])) ?_
  rw [map_getD_range (ic_scan A) []]

theorem find_index_loop_match (C : Mat) (r : List ℚ)
    (hex : ∃ c ∈ C, approx_equal r c (1/500) = true) : ∀ i : Nat,
    i ≤ find_index_loop C r i ∧
      approx_equal r (C.getD (find_index_loop C r i - i) []) (1/500) = true := by
  induction C with
  | nil =>
    rcases hex with ⟨c, hc, _⟩
    simp at hc
  | cons c cs ih =>
    intro i
    unfold find_index_loop
    by_cases h : approx_equal r c (1/500)
    · rw [if_pos h]
      exact ⟨Nat.le_refl i, by rw [Nat.sub_self]; exact h⟩
    · rw [if_neg h]
      rcases hex with ⟨c2, hc2, hap⟩
      have hc2cs : c2 ∈ cs := by
        rcases List.mem_cons.mp hc2 with h2 | h2
        · exact absurd hap (by rw [h2]; exact fun hh => h hh)
        · exact h2
      have hrec := ih ⟨c2, hc2cs, hap⟩ (i+1)
      refine ⟨by omega, ?_⟩
      have heq : find_index_loop cs r (i+1) - i = (find_index_loop cs r (i+1) - (i+1)) + 1 := by
        omega
      rw [heq, List.getD_cons_succ]
      exact hrec.2

theorem find_index_match (C : Mat) (r : List ℚ)
    (hex : ∃ c ∈ C, approx_equal r c (1/500) = true) :
    approx_equal r (C.getD (find_index C r) []) (1/500) = true := by
  have := (find_index_loop_match C r hex 0).2
  simpa [find_index] using this

theorem approx_equal_triangle (x y z : List ℚ) (hx : approx_equal x z (1/500) = true)
    (hy : approx_equal y z (1/500) = true) (k : Nat) (hk : k < x.length) :
    |x.getD k 0 - y.getD k 0| ≤ 1/250 := by
  rw [approx_equal_iff] at hx hy
  obtain ⟨hxl, hxp⟩ := hx
  obtain ⟨hyl, hyp⟩ := hy
  have hkc : k < z.length := by omega
  have hky : k < y.length := by omega
  have hzx : k < (List.zip x z).length := by rw [List.length_zip]; omega
  have hzy : k < (List.zip y z).length := by rw [List.length_zip]; omega
  have h1 : |x.getD k 0 - z.getD k 0| ≤ 1/500 := by
    have hm := List.getElem_mem hzx
    rw [List.getElem_zip] at hm
    have := hxp (x[k], z[k]) hm
    rwa [List.getD_eq_getElem?_getD, List.getElem?_eq_getElem hk, Option.getD_some,
      List.getD_eq_getElem?_getD (l := z), List.getElem?_eq_getElem hkc, Option.getD_some]
  have h2 : |y.getD k 0 - z.getD k 0| ≤ 1/500 := by
    have hm := List.getElem_mem hzy
    rw [List.getElem_zip] at hm
    have := hyp (y[k], z[k]) hm
    rwa [List.getD_eq_getElem?_getD, List.getElem?_eq_getElem hky, Option.getD_some,
      List.getD_eq_getElem?_getD (l := z), List.getElem?_eq_getElem hkc, Option.getD_some]
  have htri : |x.getD k 0 - y.getD k 0| ≤
      |x.getD k 0 - z.getD k 0| + |z.getD k 0 - y.getD k 0| :=
    abs_sub_le _ _ _
  rw [abs_sub_comm (z.getD k 0) (y.getD k 0)] at htri
  calc |x.getD k 0 - y.getD k 0| ≤ _ := htri
    _ ≤ 1/500 + 1/500 := add_le_add h1 h2
    _ = 1/250 := by norm_num

theorem list_getD_map_row (A : Mat) (f : List ℚ → Nat) (i : Nat) (h : i < A.length) :
    (A.map f).getD i 0 = f (A.getD i []) := by
  rw [List.getD_eq_getElem?_getD, List.getElem?_map, List.getElem?_eq_getElem h,
    List.getD_eq_getElem?_getD, List.getElem?_eq_getElem h]
  rfl

/-- C3 counterexample: the covariate rows `[0]` and `[1/250]` (third and second of
the input) differ by `0.004 > 0.002` in their only coordinate, yet the index vector
maps both to the same representative (index 0): both merge greedily with the row
`[1/500]` that was scanned first. -/
theorem dedup_tolerance_counterexample :
    (ic_unique_rows [[1/500], [0], [1/250]]).2 = [0, 0, 0] ∧
      ¬ |(0:ℚ) - 1/250| ≤ 1/500 :=
  ⟨by decide, by decide⟩

/-- C3 amended: row canonicalization merges greedily, in input order, each row into
the first retained representative within the `0.002` per-coordinate tolerance.
Because tolerance merging is not transitive, two rows differing by less than
`0.002` can still map to distinct representatives, and two rows differing by more
than `0.002` (up to `0.004`) in a coordinate can map to the same one (see the
counterexample).  What does hold: any two rows mapped to the same representative by
the output index vector differ by at most `0.004 = 2 * 0.002` in every coordinate -
equivalently, rows differing by more than `0.004` in some coordinate are mapped to
distinct representatives. -/
theorem ic_unique_rows_same_rep_bound (A : Mat) (i j : Nat)
    (hi : i < A.length) (hj : j < A.length)
    (heq : (ic_unique_rows A).2.getD i 0 = (ic_unique_rows A).2.getD j 0)
    (k : Nat) (hk : k < (A.getD i []).length) :
    |(A.getD i []).getD k 0 - (A.getD j []).getD k 0| ≤ 1/250 := by
  have hmap : (ic_unique_rows A).2 =
      A.map (fun row => find_index (ic_unique_rows A).1 row) := rfl
  rw [hmap, list_getD_map_row A _ i hi, list_getD_map_row A _ j hj] at heq
  have hmemi : A.getD i [] ∈ A := by
    rw [List.getD_eq_getElem?_getD, List.getElem?_eq_getElem hi]
    exact List.getElem_mem hi
  have hmemj : A.getD j [] ∈ A := by
    rw [List.getD_eq_getElem?_getD, List.getElem?_eq_getElem hj]
    exact List.getElem_mem hj
  have hexi : ∃ c2 ∈ (ic_unique_rows A).1,
      approx_equal (A.getD i []) c2 (1/500) = true := by
    obtain ⟨b, hb, hap⟩ := ic_scan_covers A _ hmemi
    exact ⟨b, ((ic_unique_rows_fst_perm A).mem_iff).mpr hb, hap⟩
  have hexj : ∃ c2 ∈ (ic_unique_rows A).1,
      approx_equal (A.getD j []) c2 (1/500) = true := by
    obtain ⟨b, hb, hap⟩ := ic_scan_covers A _ hmemj
    exact ⟨b, ((ic_unique_rows_fst_perm A).mem_iff).mpr hb, hap⟩
  have hmi := find_index_match _ _ hexi
  have hmj := find_index_match _ _ hexj
  rw [heq] at hmi
  exact approx_equal_triangle _ _ _ hmi hmj k hk

theorem ic_unique_rows_same_rep_bound_witness :
    (0 < ([[0], [1/1000]] : Mat).length ∧ 1 < ([[0], [1/1000]] : Mat).length ∧
        (ic_unique_rows [[0], [1/1000]]).2.getD 0 0 =
          (ic_unique_rows [[0], [1/1000]]).2.getD 1 0 ∧
        0 < (([[0], [1/1000]] : Mat).getD 0 []).length) ∧
      |(([[0], [1/1000]] : Mat).getD 0 []).getD 0 0 -
          (([[0], [1/1000]] : Mat).getD 1 []).getD 0 0| ≤ 1/250 :=
  ⟨⟨by decide, by decide, by decide, by decide⟩,
    ic_unique_rows_same_rep_bound [[0], [1/1000]] 0 1 (by decide) (by decide) (by decide)
      0 (by decide)⟩
